import Mathlib

/-!
Shallow embedding of the `caplog` crate.

`src/stable_list.rs` implements `StableList`, a chunked append-only list with a
single locking writer and lockless resumable iterators, and
`src/lib.rs` implements the log-capture facade (`CaplogHandle`) on top of an
append-only vector of records.

Modeling conventions:
* A chunk (`[UnsafeCell<MaybeUninit<T>>; CHUNK_SIZE]`) is a total function from
  the slot offset to `Option T`; an uninitialized slot holds `none`.  Reading a
  slot through `unwrap_value` is undefined behavior in Rust when the slot is
  uninitialized; the model returns the slot's `Option T` content, so an
  uninitialized read surfaces as `none` inside a yielded value.
* The raw chunk pointers handed out by `get_chunk` are modeled by the chunk's
  ordinal in the chunk sequence: chunks are never moved or removed, so a
  pointer is identified with its position.  Dereferencing a cached pointer is
  modeled by reading that ordinal in the current list.
* Panics (`panic!`, `expect`) make an operation return `none`; the mutex and
  the poisoning path are not modeled (the embedding is sequential, so the lock
  is always available).
* `AtomicU32` is modeled as a `Nat` together with the explicit `u32::MAX`
  ceiling that `push` enforces before incrementing.
* The iterator's `next` needs the underlying list; the embedding passes the
  list explicitly instead of storing the borrow inside the iterator.
-/

namespace Caplog

/-- `const CHUNK_SIZE: usize = 128;` -/
def CHUNK_SIZE : Nat := 128

/-- `u32::MAX as usize`, the hard ceiling of `last_global_idx`. -/
def u32Max : Nat := 4294967295

/-- One chunk: `[UnsafeCell<MaybeUninit<T>>; CHUNK_SIZE]`.  Slot `j` holds
`none` while uninitialized. -/
def Chunk (T : Type) : Type := Nat → Option T

/-- `MaybeUninit::uninit().assume_init()`: a fresh chunk, all slots
uninitialized. -/
def newChunk {T : Type} : Chunk T := fun _ => none

/-- `*(**last_block)[j].get() = MaybeUninit::new(item)`: initialize slot `j`. -/
def writeChunk {T : Type} (ch : Chunk T) (j : Nat) (x : T) : Chunk T :=
  fun k => if k = j then some x else ch k

/-- `StableListInner<T>` (and its shared handle `StableList<T>`): the linked
list of chunk pointers plus the committed-length counter `last_global_idx`. -/
structure StableList (T : Type) : Type where
  chunks : List (Chunk T)
  last_global_idx : Nat

/-- `StableListIterator`: absolute index of the last yielded value, the
optional exclusive end boundary, and the cached chunk pointer (`none` models
the null pointer, `some c` a cached pointer to chunk ordinal `c`). -/
structure StableListIterator : Type where
  idx : Nat
  end_idx : Option Nat
  chunk : Option Nat

namespace StableList

/-- `StableList::new`. -/
def new (T : Type) : StableList T := ⟨[], 0⟩

/-- `StableListInner::len`: reads `last_global_idx`. -/
def len {T : Type} (l : StableList T) : Nat := l.last_global_idx

/-- `StableListInner::push`.  Returns `none` where the source panics: when
`last_global_idx` has reached `u32::MAX`, or when the `expect` on the last
block fails because the chunk sequence is empty.  Otherwise appends a fresh
chunk when `global_idx` is a multiple of `CHUNK_SIZE`, writes the item into
slot `global_idx % CHUNK_SIZE` of the last chunk (modeled by `List.set` at the
last position), and increments the counter. -/
def push {T : Type} (l : StableList T) (item : T) : Option (StableList T) :=
  let global_idx := l.last_global_idx
  if global_idx = u32Max then none
  else
    let chunks :=
      if global_idx % CHUNK_SIZE = 0 then l.chunks ++ [newChunk] else l.chunks
    match chunks.getLast? with
    | none => none
    | some last_block =>
        some { chunks := chunks.set (chunks.length - 1)
                 (writeChunk last_block (global_idx % CHUNK_SIZE) item),
               last_global_idx := global_idx + 1 }

/-- `StableListInner::get_chunk`: `list.iter().nth(idx).copied()`, the stable
pointer to chunk `idx`, modeled by its ordinal. -/
def get_chunk {T : Type} (l : StableList T) (idx : Nat) : Option Nat :=
  if idx < l.chunks.length then some idx else none

/-- Dereference a chunk pointer `c` and read slot `j`
(`unwrap_value(&(&**ch)[j])`).  A read of an uninitialized slot (undefined
behavior in the source) is the `none` value of the slot. -/
def readChunk {T : Type} (l : StableList T) (c : Nat) (j : Nat) : Option T :=
  match l.chunks[c]? with
  | some ch => ch j
  | none => none

/-- `StableListInner::get`: bounds check against `last_global_idx`, then
`list.iter().nth(idx / CHUNK_SIZE).map(|ch| unwrap_value(&ch[idx % CHUNK_SIZE]))`. -/
def get {T : Type} (l : StableList T) (idx : Nat) : Option T :=
  if idx < l.last_global_idx then
    readChunk l (idx / CHUNK_SIZE) (idx % CHUNK_SIZE)
  else none

/-- `StableList::iter`: unbounded iterator from index 0, null chunk cache. -/
def iter {T : Type} (_l : StableList T) : StableListIterator :=
  ⟨0, none, none⟩

/-- `StableList::bounded_iter(start, end)`. -/
def bounded_iter {T : Type} (_l : StableList T) (start : Nat) (e : Option Nat) :
    StableListIterator :=
  ⟨start, e, none⟩

end StableList

namespace StableListIterator

/-- The tail of `StableListIterator::next` once a chunk is cached (`c` is the
cached chunk ordinal): the `idx + 1 == len` check, the chunk-boundary
crossing, the index advance and the yield. -/
def next_go {T : Type} (self : StableListIterator) (list : StableList T)
    (c : Nat) : Option (Option T) × StableListIterator :=
  if self.idx + 1 = list.len then (none, self)
  else if self.idx % CHUNK_SIZE + 1 = CHUNK_SIZE then
    match StableList.get_chunk list (self.idx / CHUNK_SIZE + 1) with
    | none => (none, self)
    | some c2 =>
        (some (StableList.readChunk list c2 ((self.idx + 1) % CHUNK_SIZE)),
         { self with chunk := some c2, idx := self.idx + 1 })
  else
    (some (StableList.readChunk list c ((self.idx + 1) % CHUNK_SIZE)),
     { self with idx := self.idx + 1 })

/-- `<StableListIterator as Iterator>::next`.  Yields
`some v` where the source returns `Some(&value)` (`v` is the slot content,
`none` for an uninitialized slot) and `none` where it returns `None`.  The
not-yet-started branch checks `idx >= len + 1`, looks up the chunk containing
`idx` and yields without advancing `idx`; the started branch first applies the
end boundary, then the `idx + 1 == len` check, then crosses chunk boundaries. -/
def next {T : Type} (self : StableListIterator) (list : StableList T) :
    Option (Option T) × StableListIterator :=
  match self.chunk with
  | none =>
      if list.len + 1 ≤ self.idx then (none, self)
      else
        match StableList.get_chunk list (self.idx / CHUNK_SIZE) with
        | none => (none, self)
        | some c =>
            (some (StableList.readChunk list c (self.idx % CHUNK_SIZE)),
             { self with chunk := some c })
  | some c =>
      match self.end_idx with
      | some e =>
          if self.idx + 1 = e then (none, self) else next_go self list c
      | none => next_go self list c

end StableListIterator

/-- Push a whole batch of items in order, propagating a `push` panic. -/
def pushAll {T : Type} (l : StableList T) : List T → Option (StableList T)
  | [] => some l
  | x :: xs =>
      match l.push x with
      | none => none
      | some l2 => pushAll l2 xs

/-- The list obtained by pushing `xs`, in order, onto `StableList::new()`. -/
def buildList {T : Type} (xs : List T) : Option (StableList T) :=
  pushAll (StableList.new T) xs

/-- Poll an iterator `k` times against a fixed list, collecting the results of
every `next` call in order. -/
def nextN {T : Type} (list : StableList T) (it : StableListIterator) :
    Nat → List (Option (Option T)) × StableListIterator
  | 0 => ([], it)
  | k + 1 =>
      let r := it.next list
      let rs := nextN list r.2 k
      (r.1 :: rs.1, rs.2)

/-- One interleaved operation: a writer push or a reader poll. -/
inductive Op (T : Type) : Type
  | push : T → Op T
  | poll : Op T

/-- Run an interleaved sequence of pushes and polls of a single iterator,
collecting each poll's result; `none` if some push panics. -/
def run {T : Type} (l : StableList T) (it : StableListIterator) :
    List (Op T) → Option (List (Option (Option T)))
  | [] => some []
  | Op.push x :: ops =>
      match l.push x with
      | none => none
      | some l2 => run l2 it ops
  | Op.poll :: ops =>
      let r := it.next l
      match run l r.2 ops with
      | none => none
      | some outs => some (r.1 :: outs)

/-- Number of chunks needed for `n` committed elements: `⌈n / CHUNK_SIZE⌉`. -/
def numChunks (n : Nat) : Nat := (n + CHUNK_SIZE - 1) / CHUNK_SIZE

/-- The abstraction relation: `l` is the stable list holding exactly the
elements of `xs`, in order.  Beyond `xs.length` every slot is uninitialized. -/
structure Models {T : Type} (l : StableList T) (xs : List T) : Prop where
  len_eq : l.last_global_idx = xs.length
  len_le : xs.length ≤ u32Max
  chunks_len : l.chunks.length = numChunks xs.length
  slots : ∀ c j, StableList.readChunk l c j =
    if j < CHUNK_SIZE ∧ c * CHUNK_SIZE + j < xs.length
    then xs[c * CHUNK_SIZE + j]? else none

/-! ### Invariant lemmas for the stable list -/

theorem models_new (T : Type) : Models (StableList.new T) [] := by
  constructor
  · rfl
  · exact Nat.zero_le _
  · simp [StableList.new, numChunks, CHUNK_SIZE]
  · intro c j
    simp [StableList.readChunk, StableList.new]

theorem set_concat {α : Type} (as : List α) (a b : α) :
    (as ++ [a]).set as.length b = as ++ [b] := by
  induction as with
  | nil => rfl
  | cons hd tl ih =>
      show hd :: (tl ++ [a]).set tl.length b = hd :: (tl ++ [b])
      rw [ih]

/-- `push` when the current index starts a brand-new chunk. -/
theorem push_eq_of_mod_zero {T : Type} (l : StableList T) (x : T)
    (h1 : l.last_global_idx ≠ u32Max) (h2 : l.last_global_idx % CHUNK_SIZE = 0) :
    l.push x =
      some ⟨l.chunks ++ [writeChunk newChunk 0 x], l.last_global_idx + 1⟩ := by
  simp only [StableList.push, if_neg h1, h2, if_true, eq_self_iff_true,
    List.getLast?_concat, List.length_append, List.length_cons,
    List.length_nil, Nat.zero_add, Nat.add_sub_cancel, set_concat]

/-- `push` when the last chunk still has room. -/
theorem push_eq_of_mod_ne_zero {T : Type} (l : StableList T) (x : T)
    (last_block : Chunk T)
    (h1 : l.last_global_idx ≠ u32Max) (h2 : l.last_global_idx % CHUNK_SIZE ≠ 0)
    (h3 : l.chunks.getLast? = some last_block) :
    l.push x =
      some ⟨l.chunks.set (l.chunks.length - 1)
              (writeChunk last_block (l.last_global_idx % CHUNK_SIZE) x),
            l.last_global_idx + 1⟩ := by
  simp only [StableList.push, if_neg h1, if_neg h2, h3]

theorem push_models {T : Type} {l : StableList T} {xs : List T}
    (hm : Models l xs) (x : T) :
    (xs.length = u32Max ∧ l.push x = none) ∨
    (xs.length < u32Max ∧
      ∃ l2, l.push x = some l2 ∧ Models l2 (xs ++ [x])) := by
  obtain ⟨hlen, hle, hcl, hs⟩ := hm
  have hn : l.chunks.length = (xs.length + 128 - 1) / 128 := by
    simpa only [numChunks, CHUNK_SIZE] using hcl
  by_cases hmax : xs.length = u32Max
  · left
    exact ⟨hmax, by simp only [StableList.push, hlen, if_pos hmax]⟩
  · right
    have hlt : xs.length < u32Max := lt_of_le_of_ne hle hmax
    have hmax2 : l.last_global_idx ≠ u32Max := by rw [hlen]; exact hmax
    refine ⟨hlt, ?_⟩
    by_cases hz : xs.length % 128 = 0
    · -- a brand-new chunk is appended and written at offset 0
      refine ⟨⟨l.chunks ++ [writeChunk newChunk 0 x], xs.length + 1⟩,
        by rw [push_eq_of_mod_zero l x hmax2 (by rw [hlen]; exact hz), hlen],
        ?_⟩
      constructor
      · simp
      · simp only [List.length_append, List.length_cons, List.length_nil]
        omega
      · simp only [List.length_append, List.length_cons, List.length_nil,
          numChunks, CHUNK_SIZE]
        omega
      · intro c j
        simp only [CHUNK_SIZE, List.length_append, List.length_cons,
          List.length_nil]
        have hsl := hs c j
        simp only [CHUNK_SIZE] at hsl
        rcases Nat.lt_trichotomy c l.chunks.length with hc | hc | hc
        · have hrd : StableList.readChunk
              ⟨l.chunks ++ [writeChunk newChunk 0 x], xs.length + 1⟩ c j =
              StableList.readChunk l c j := by
            simp only [StableList.readChunk, List.getElem?_append_left hc]
          rw [hrd, hsl]
          by_cases hj : j < 128
          · have hp : c * 128 + j < xs.length := by omega
            rw [if_pos ⟨hj, hp⟩, if_pos ⟨hj, by omega⟩,
              List.getElem?_append_left hp]
          · rw [if_neg (fun h => hj h.1), if_neg (fun h => hj h.1)]
        · have hrd : StableList.readChunk
              ⟨l.chunks ++ [writeChunk newChunk 0 x], xs.length + 1⟩ c j =
              writeChunk newChunk 0 x j := by
            simp only [StableList.readChunk, hc, List.getElem?_concat_length]
          rw [hrd]
          have hce : c * 128 = xs.length := by omega
          by_cases hj : j = 0
          · subst hj
            have hidx : c * 128 + 0 = xs.length := by omega
            rw [if_pos ⟨by omega, by omega⟩, hidx, List.getElem?_concat_length]
            simp [writeChunk]
          · rw [if_neg (fun h => by omega)]
            simp [writeChunk, newChunk, hj]
        · have hrd : StableList.readChunk
              ⟨l.chunks ++ [writeChunk newChunk 0 x], xs.length + 1⟩ c j =
              none := by
            simp only [StableList.readChunk]
            rw [List.getElem?_eq_none (by simp; omega)]
          rw [hrd, if_neg (fun h => by omega)]
    · -- the last chunk still has room; its slot xs.length % 128 is written
      have hne : l.chunks ≠ [] := by
        intro hnil
        rw [hnil] at hn
        simp only [List.length_nil] at hn
        omega
      obtain ⟨last_block, h3⟩ : ∃ lb, l.chunks.getLast? = some lb := by
        cases hgl : l.chunks.getLast? with
        | none => exact absurd (List.getLast?_eq_none_iff.mp hgl) hne
        | some lb => exact ⟨lb, rfl⟩
      have hlast : l.chunks[l.chunks.length - 1]? = some last_block := by
        rw [← List.getLast?_eq_getElem?]
        exact h3
      refine ⟨⟨l.chunks.set (l.chunks.length - 1)
                 (writeChunk last_block (xs.length % CHUNK_SIZE) x),
               xs.length + 1⟩,
        by rw [push_eq_of_mod_ne_zero l x last_block hmax2
          (by rw [hlen]; exact hz) h3, hlen],
        ?_⟩
      constructor
      · simp
      · simp only [List.length_append, List.length_cons, List.length_nil]
        omega
      · simp only [List.length_set, List.length_append, List.length_cons,
          List.length_nil, numChunks, CHUNK_SIZE]
        omega
      · intro c j
        simp only [CHUNK_SIZE, List.length_append, List.length_cons,
          List.length_nil]
        have hsl := hs c j
        simp only [CHUNK_SIZE] at hsl
        by_cases hc : c = l.chunks.length - 1
        · subst hc
          have hrd : StableList.readChunk
              ⟨l.chunks.set (l.chunks.length - 1)
                 (writeChunk last_block (xs.length % 128) x),
               xs.length + 1⟩ (l.chunks.length - 1) j =
              writeChunk last_block (xs.length % 128) x j := by
            simp only [StableList.readChunk, List.getElem?_set_self', hlast]
            rfl
          rw [hrd]
          have hlb : last_block j = StableList.readChunk l
              (l.chunks.length - 1) j := by
            simp only [StableList.readChunk, hlast]
          by_cases hj : j = xs.length % 128
          · have hidx : (l.chunks.length - 1) * 128 + j = xs.length := by omega
            rw [if_pos ⟨by omega, by omega⟩, hidx, List.getElem?_concat_length]
            simp [writeChunk, hj]
          · have hwr : writeChunk last_block (xs.length % 128) x j =
                last_block j := by
              simp only [writeChunk]
              rw [if_neg hj]
            rw [hwr, hlb, hsl]
            by_cases hj2 : j < 128
            · by_cases hp : (l.chunks.length - 1) * 128 + j < xs.length
              · rw [if_pos ⟨hj2, hp⟩, if_pos ⟨hj2, by omega⟩,
                  List.getElem?_append_left hp]
              · rw [if_neg (fun h => hp (by omega)), if_neg (fun h => by
                  exact absurd (by omega : (l.chunks.length - 1) * 128 + j
                    = xs.length) (by omega))]
            · rw [if_neg (fun h => hj2 h.1), if_neg (fun h => hj2 h.1)]
        · have hrd : StableList.readChunk
              ⟨l.chunks.set (l.chunks.length - 1)
                 (writeChunk last_block (xs.length % 128) x),
               xs.length + 1⟩ c j = StableList.readChunk l c j := by
            simp only [StableList.readChunk,
              List.getElem?_set_ne (fun h => hc h.symm)]
          rw [hrd, hsl]
          by_cases hj : j < 128
          · by_cases hp : c * 128 + j < xs.length
            · rw [if_pos ⟨hj, hp⟩, if_pos ⟨hj, by omega⟩,
                List.getElem?_append_left hp]
            · have hne2 : c * 128 + j ≠ xs.length := by
                rcases Nat.lt_or_ge c (l.chunks.length - 1) with hcc | hcc
                · omega
                · have hge : l.chunks.length ≤ c := by omega
                  omega
              rw [if_neg (fun h => hp h.2), if_neg (fun h => by omega)]
          · rw [if_neg (fun h => hj h.1), if_neg (fun h => hj h.1)]

theorem pushAll_models {T : Type} :
    ∀ (ys : List T) (l : StableList T) (xs : List T) (l2 : StableList T),
      Models l xs → pushAll l ys = some l2 → Models l2 (xs ++ ys) := by
  intro ys
  induction ys with
  | nil =>
      intro l xs l2 hm h
      simp only [pushAll] at h
      cases h
      simpa using hm
  | cons y ys ih =>
      intro l xs l2 hm h
      simp only [pushAll] at h
      rcases push_models hm y with ⟨_, hn⟩ | ⟨_, l1, hp, hm1⟩
      · rw [hn] at h
        exact Option.noConfusion h
      · rw [hp] at h
        have hrec := ih l1 (xs ++ [y]) l2 hm1 h
        simpa using hrec

theorem buildList_models {T : Type} {xs : List T} {l : StableList T}
    (h : buildList xs = some l) : Models l xs := by
  have hres := pushAll_models xs (StableList.new T) [] l (models_new T) h
  simpa using hres

theorem get_models {T : Type} {l : StableList T} {xs : List T}
    (hm : Models l xs) (i : Nat) : l.get i = xs[i]? := by
  have hlen := hm.len_eq
  by_cases hi : i < xs.length
  · have h1 : i < l.last_global_idx := by omega
    simp only [StableList.get, if_pos h1]
    rw [hm.slots]
    have hidx : i / CHUNK_SIZE * CHUNK_SIZE + i % CHUNK_SIZE = i :=
      Nat.div_add_mod' i CHUNK_SIZE
    rw [hidx, if_pos ⟨Nat.mod_lt i (by decide), hi⟩]
  · have h1 : ¬ i < l.last_global_idx := by omega
    simp only [StableList.get, if_neg h1]
    rw [List.getElem?_eq_none (by omega)]

theorem push_len {T : Type} {l : StableList T} {x : T} {l2 : StableList T}
    (h : l.push x = some l2) : l2.last_global_idx = l.last_global_idx + 1 := by
  simp only [StableList.push] at h
  split at h
  · exact Option.noConfusion h
  · split at h
    · exact Option.noConfusion h
    · cases h
      rfl

/-- The absolute index the iterator will try to yield on its next poll: `idx`
itself while not started (null chunk cache), `idx + 1` afterwards. -/
def nextIdx (it : StableListIterator) : Nat :=
  match it.chunk with
  | none => it.idx
  | some _ => it.idx + 1

/-- Consistency of the cached chunk pointer: it points at the chunk holding
`idx`.  Every iterator state reachable from `iter`/`bounded_iter` satisfies
this. -/
def WfIt (it : StableListIterator) : Prop :=
  ∀ c, it.chunk = some c → c = it.idx / CHUNK_SIZE

theorem next_step {T : Type} {l : StableList T} {xs : List T}
    {it : StableListIterator}
    (hm : Models l xs) (he : it.end_idx = none) (hw : WfIt it)
    (hlt : nextIdx it < xs.length) :
    it.next l =
      (some xs[nextIdx it]?,
       ⟨nextIdx it, none, some (nextIdx it / CHUNK_SIZE)⟩) := by
  obtain ⟨hlen, hle, hcl, hs⟩ := hm
  have hn : l.chunks.length = (xs.length + 128 - 1) / 128 := by
    simpa only [numChunks, CHUNK_SIZE] using hcl
  obtain ⟨i, e, ch⟩ := it
  cases he
  cases ch with
  | none =>
      simp only [nextIdx] at hlt ⊢
      simp only [StableListIterator.next]
      have h1 : ¬(l.len + 1 ≤ i) := by
        simp only [StableList.len, hlen]
        omega
      rw [if_neg h1]
      have h2 : StableList.get_chunk l (i / CHUNK_SIZE) =
          some (i / CHUNK_SIZE) := by
        simp only [StableList.get_chunk, CHUNK_SIZE]
        rw [if_pos (by omega)]
      rw [h2]
      show (some (StableList.readChunk l (i / CHUNK_SIZE) (i % CHUNK_SIZE)),
          ({ idx := i, end_idx := none, chunk := some (i / CHUNK_SIZE) } :
            StableListIterator)) = _
      have hsl := hs (i / CHUNK_SIZE) (i % CHUNK_SIZE)
      rw [hsl]
      have hidx : i / CHUNK_SIZE * CHUNK_SIZE + i % CHUNK_SIZE = i :=
        Nat.div_add_mod' i CHUNK_SIZE
      rw [hidx, if_pos ⟨Nat.mod_lt i (by decide), hlt⟩]
  | some c0 =>
      have hc0 : c0 = i / CHUNK_SIZE := hw c0 rfl
      subst hc0
      simp only [nextIdx] at hlt ⊢
      simp only [StableListIterator.next, StableListIterator.next_go]
      have h1 : ¬(i + 1 = l.len) := by
        simp only [StableList.len, hlen]
        omega
      rw [if_neg h1]
      by_cases hb : i % CHUNK_SIZE + 1 = CHUNK_SIZE
      · rw [if_pos hb]
        simp only [CHUNK_SIZE] at hb
        have h2 : StableList.get_chunk l (i / CHUNK_SIZE + 1) =
            some (i / CHUNK_SIZE + 1) := by
          simp only [StableList.get_chunk, CHUNK_SIZE]
          rw [if_pos (by omega)]
        rw [h2]
        show (some (StableList.readChunk l (i / CHUNK_SIZE + 1)
            ((i + 1) % CHUNK_SIZE)),
          ({ idx := i + 1, end_idx := none,
             chunk := some (i / CHUNK_SIZE + 1) } : StableListIterator)) = _
        have hsl := hs (i / CHUNK_SIZE + 1) ((i + 1) % CHUNK_SIZE)
        rw [hsl]
        have hidx : (i / CHUNK_SIZE + 1) * CHUNK_SIZE + (i + 1) % CHUNK_SIZE =
            i + 1 := by
          simp only [CHUNK_SIZE]
          omega
        rw [hidx, if_pos ⟨Nat.mod_lt (i + 1) (by decide), hlt⟩]
        have hdiv : i / CHUNK_SIZE + 1 = (i + 1) / CHUNK_SIZE := by
          simp only [CHUNK_SIZE]
          omega
        rw [hdiv]
      · rw [if_neg hb]
        simp only [CHUNK_SIZE] at hb
        have hsl := hs (i / CHUNK_SIZE) ((i + 1) % CHUNK_SIZE)
        rw [hsl]
        have hidx : i / CHUNK_SIZE * CHUNK_SIZE + (i + 1) % CHUNK_SIZE =
            i + 1 := by
          simp only [CHUNK_SIZE]
          omega
        rw [hidx, if_pos ⟨Nat.mod_lt (i + 1) (by decide), hlt⟩]
        have hdiv : i / CHUNK_SIZE = (i + 1) / CHUNK_SIZE := by
          simp only [CHUNK_SIZE]
          omega
        rw [hdiv]

theorem nextN_models {T : Type} {l : StableList T} {xs : List T}
    (hm : Models l xs) :
    ∀ (k : Nat) (it : StableListIterator), it.end_idx = none → WfIt it →
      nextIdx it + k ≤ xs.length →
      (nextN l it k).1 =
        (List.range k).map (fun j => some xs[nextIdx it + j]?) ∧
      (nextN l it k).2.end_idx = none ∧ WfIt (nextN l it k).2 ∧
      nextIdx (nextN l it k).2 = nextIdx it + k := by
  intro k
  induction k with
  | zero =>
      intro it he hw _
      exact ⟨rfl, he, hw, rfl⟩
  | succ k ih =>
      intro it he hw hb
      have hlt : nextIdx it < xs.length := by omega
      have hstep := next_step hm he hw hlt
      have hnext : nextN l it (k + 1) =
          (some xs[nextIdx it]? ::
             (nextN l ⟨nextIdx it, none, some (nextIdx it / CHUNK_SIZE)⟩ k).1,
           (nextN l ⟨nextIdx it, none, some (nextIdx it / CHUNK_SIZE)⟩ k).2) := by
        simp only [nextN, hstep]
      have hw2 : WfIt ⟨nextIdx it, none, some (nextIdx it / CHUNK_SIZE)⟩ := by
        intro c hc
        cases hc
        rfl
      have hrec := ih ⟨nextIdx it, none, some (nextIdx it / CHUNK_SIZE)⟩ rfl hw2
        (by show nextIdx it + 1 + k ≤ xs.length; omega)
      refine ⟨?_, ?_, ?_, ?_⟩
      · rw [hnext]
        show some xs[nextIdx it]? :: _ =
          (List.range (k + 1)).map (fun j => some xs[nextIdx it + j]?)
        rw [hrec.1, List.range_succ_eq_map, List.map_cons, List.map_map]
        congr 1
        apply List.map_congr_left
        intro j _
        show some xs[nextIdx it + 1 + j]? = some xs[nextIdx it + (j + 1)]?
        have hadd : nextIdx it + 1 + j = nextIdx it + (j + 1) := by omega
        rw [hadd]
      · rw [hnext]
        exact hrec.2.1
      · rw [hnext]
        exact hrec.2.2.1
      · rw [hnext]
        rw [hrec.2.2.2]
        show nextIdx it + 1 + k = nextIdx it + (k + 1)
        omega

/-- Mapping a function of `getElem?` over `range length` is mapping it over
the list itself. -/
theorem range_map_getElem {α β : Type} (ys : List α) (f : Option α → β) :
    (List.range ys.length).map (fun j => f ys[j]?) =
      ys.map (fun y => f (some y)) := by
  induction ys with
  | nil => rfl
  | cons y ys ih =>
      rw [List.length_cons, List.range_succ_eq_map, List.map_cons,
        List.map_map]
      congr 1
      · simp
      · rw [← ih]
        apply List.map_congr_left
        intro j _
        show f (y :: ys)[j + 1]? = f ys[j]?
        rw [List.getElem?_cons_succ]

/-! ### The log-capture facade (src/lib.rs)

The facade records `Record`s in a global append-only vector (`boxcar::Vec`);
the embedding passes that vector to each operation as an explicit
`List Record`, with `count()` as its length. -/

/-- `log::Level`. -/
inductive Level : Type
  | error
  | warn
  | info
  | debug
  | trace

/-- A single captured log message (`struct Record`). -/
structure Record : Type where
  level : Level
  msg : String

/-- `str::contains(snippet)`: the snippet occurs as a contiguous substring. -/
def strContains (hay needle : String) : Bool :=
  decide (needle.toList <:+: hay.toList)

/-- `CaplogHandle` minus its `Arc` to the global record vector (the vector is
passed to each operation explicitly). -/
structure CaplogHandle : Type where
  start_idx : Nat
  stop_idx : Option Nat

namespace CaplogHandle

/-- `CaplogHandle::iter`: the underlying vector's iterator yields
`(index, &Record)` pairs; the handle applies `skip(start_idx)` and, once a
stop index is frozen, `take(stop_idx - start_idx)`. -/
def iter (logs : List Record) (h : CaplogHandle) : List (Nat × Record) :=
  match h.stop_idx with
  | none => logs.enum.drop h.start_idx
  | some stop_idx => (logs.enum.drop h.start_idx).take (stop_idx - h.start_idx)

/-- `CaplogHandle::any_msg_contains`. -/
def any_msg_contains (logs : List Record) (h : CaplogHandle)
    (snippet : String) : Bool :=
  (iter logs h).any (fun p => strContains p.2.msg snippet)

/-- `CaplogHandle::stop_recording`: freezes the end offset at the vector's
current count. -/
def stop_recording (logs : List Record) (h : CaplogHandle) : CaplogHandle :=
  { h with stop_idx := some logs.length }

end CaplogHandle

/-- `get_handle`: captures the current count as the start offset, with no
stop offset. -/
def get_handle (logs : List Record) : CaplogHandle :=
  ⟨logs.length, none⟩

/-- The exclusive end of the window a handle can observe over `logs`: the
frozen stop offset if `stop_recording` ran, the current count otherwise. -/
def windowEnd (logs : List Record) (h : CaplogHandle) : Nat :=
  match h.stop_idx with
  | none => logs.length
  | some e => e

theorem enum_getElem {α : Type} (logs : List α) (i : Nat) :
    logs.enum[i]? = (logs[i]?).map (fun r => (i, r)) := by
  rw [← List.get?_eq_getElem?, ← List.get?_eq_getElem?, List.get?_enum]

theorem mem_handle_iter (logs : List Record) (h : CaplogHandle)
    (hstop : ∀ e, h.stop_idx = some e → e ≤ logs.length) (x : Nat × Record) :
    x ∈ CaplogHandle.iter logs h ↔
      h.start_idx ≤ x.1 ∧ x.1 < windowEnd logs h ∧ logs[x.1]? = some x.2 := by
  obtain ⟨s, st⟩ := h
  obtain ⟨i, r⟩ := x
  cases st with
  | none =>
      simp only [CaplogHandle.iter, windowEnd]
      rw [List.mem_iff_getElem?]
      constructor
      · rintro ⟨j, hj⟩
        rw [List.getElem?_drop, enum_getElem] at hj
        cases hl : logs[s + j]? with
        | none => rw [hl] at hj; exact Option.noConfusion hj
        | some r2 =>
            rw [hl] at hj
            have hj2 : ((s + j, r2) : Nat × Record) = (i, r) := by
              simpa using hj
            cases hj2
            have hlb : s + j < logs.length := by
              by_contra hc
              rw [List.getElem?_eq_none (by omega)] at hl
              exact Option.noConfusion hl
            exact ⟨by omega, hlb, hl⟩
      · rintro ⟨h1, h2, h3⟩
        refine ⟨i - s, ?_⟩
        rw [List.getElem?_drop, enum_getElem]
        have hsi : s + (i - s) = i := by omega
        rw [hsi, h3]
        rfl
  | some e =>
      simp only [CaplogHandle.iter, windowEnd]
      rw [List.mem_iff_getElem?]
      have hse : e ≤ logs.length := hstop e rfl
      constructor
      · rintro ⟨j, hj⟩
        by_cases hjlt : j < e - s
        · rw [List.getElem?_take_of_lt hjlt, List.getElem?_drop,
            enum_getElem] at hj
          cases hl : logs[s + j]? with
          | none => rw [hl] at hj; exact Option.noConfusion hj
          | some r2 =>
              rw [hl] at hj
              have hj2 : ((s + j, r2) : Nat × Record) = (i, r) := by
                simpa using hj
              cases hj2
              exact ⟨by omega, by omega, hl⟩
        · have hnone : ((logs.enum.drop s).take (e - s))[j]? = none := by
            apply List.getElem?_eq_none
            have := List.length_take (e - s) (logs.enum.drop s)
            omega
          rw [hnone] at hj
          exact Option.noConfusion hj
      · rintro ⟨h1, h2, h3⟩
        refine ⟨i - s, ?_⟩
        rw [List.getElem?_take_of_lt (by omega), List.getElem?_drop,
          enum_getElem]
        have hsi : s + (i - s) = i := by omega
        rw [hsi, h3]
        rfl

theorem any_msg_contains_iff (logs : List Record) (h : CaplogHandle)
    (s : String) (hstop : ∀ e, h.stop_idx = some e → e ≤ logs.length) :
    CaplogHandle.any_msg_contains logs h s = true ↔
      ∃ i r, h.start_idx ≤ i ∧ i < windowEnd logs h ∧ logs[i]? = some r ∧
        s.toList <:+: r.msg.toList := by
  unfold CaplogHandle.any_msg_contains
  rw [List.any_eq_true]
  constructor
  · rintro ⟨x, hx, hpx⟩
    rw [mem_handle_iter logs h hstop] at hx
    exact ⟨x.1, x.2, hx.1, hx.2.1, hx.2.2,
      by simpa [strContains] using hpx⟩
  · rintro ⟨i, r, h1, h2, h3, h4⟩
    refine ⟨(i, r), ?_, ?_⟩
    · rw [mem_handle_iter logs h hstop]
      exact ⟨h1, h2, h3⟩
    · simpa [strContains] using h4

/-! ### Claim theorems -/

/-- Claim C1 (refuted on the code, failing run): on a list holding one
element, the bounded iterator over the empty window `[0, 0)` (so `s = e = 0`,
`s ≤ e`) yields the element at index `0 ≥ e` on its very first poll, because
the not-yet-started branch of `next` never consults `end_idx`. -/
theorem empty_window_first_poll_yields :
    buildList [42] = some ⟨[writeChunk newChunk 0 42], 1⟩ ∧
    ((StableList.bounded_iter
        (⟨[writeChunk newChunk 0 42], 1⟩ : StableList Nat) 0 (some 0)).next
      ⟨[writeChunk newChunk 0 42], 1⟩).1 = some (some 42) :=
  ⟨rfl, rfl⟩

/-- Claim C2 (refuted on the code, failing run): a not-yet-started iterator
whose start index equals the committed length `1` (and chunk 0 exists because
`1 % CHUNK_SIZE ≠ 0`) does not return `None`: the `idx >= len + 1` guard lets
`idx = len` through, so `next` dereferences the uninitialized slot at index 1
(yielding the slot's `none` content in the model — undefined behavior in the
source) and caches the chunk, mutating the iterator's state. -/
theorem start_at_len_reads_uninitialized :
    buildList [42] = some ⟨[writeChunk newChunk 0 42], 1⟩ ∧
    StableList.len (⟨[writeChunk newChunk 0 42], 1⟩ : StableList Nat) = 1 ∧
    ((StableList.bounded_iter
        (⟨[writeChunk newChunk 0 42], 1⟩ : StableList Nat) 1 none).next
      ⟨[writeChunk newChunk 0 42], 1⟩).1 = some none ∧
    ((StableList.bounded_iter
        (⟨[writeChunk newChunk 0 42], 1⟩ : StableList Nat) 1 none).next
      ⟨[writeChunk newChunk 0 42], 1⟩).2.chunk = some 0 :=
  ⟨rfl, rfl, rfl, rfl⟩

/-- Claim C3: on a list built by pushing `xs` from `new()`, `get i` returns
exactly the i-th pushed value for every `i < len`, and `none` for every
`i ≥ len`. -/
theorem get_returns_pushed {T : Type} (xs : List T) (l : StableList T)
    (hb : buildList xs = some l) :
    (∀ i, (hi : i < xs.length) → l.get i = some (xs.get ⟨i, hi⟩)) ∧
    (∀ i, xs.length ≤ i → l.get i = none) := by
  have hm := buildList_models hb
  constructor
  · intro i hi
    rw [get_models hm i, List.getElem?_eq_getElem hi]
    rfl
  · intro i hi
    rw [get_models hm i]
    exact List.getElem?_eq_none hi

theorem get_returns_pushed_witness :
    buildList [10, 20] =
      some ⟨[writeChunk (writeChunk newChunk 0 10) 1 20], 2⟩ ∧
    StableList.get
      (⟨[writeChunk (writeChunk newChunk 0 10) 1 20], 2⟩ : StableList Nat) 1 =
      some 20 ∧
    StableList.get
      (⟨[writeChunk (writeChunk newChunk 0 10) 1 20], 2⟩ : StableList Nat) 2 =
      none :=
  ⟨rfl,
   (get_returns_pushed [10, 20] _ rfl).1 1 (by decide),
   (get_returns_pushed [10, 20] _ rfl).2 2 (by decide)⟩

/-- Claim C4: an unbounded iterator that returned `None` with its next index
equal to the committed length yields, after `ys` is pushed, exactly the
elements of `ys` in push order over the next `ys.length` polls — no loss, no
duplication, chunk boundaries included. -/
theorem resumed_iter_yields_new_pushes {T : Type} (xs ys : List T)
    (l l2 : StableList T) (it : StableListIterator)
    (hb : buildList xs = some l) (he : it.end_idx = none) (hw : WfIt it)
    (hni : nextIdx it = xs.length) (hnone : (it.next l).1 = none)
    (hp : pushAll l ys = some l2) :
    (nextN l2 it ys.length).1 = ys.map (fun y => some (some y)) := by
  have hm := buildList_models hb
  have hm2 := pushAll_models ys l xs l2 hm hp
  have hlen : nextIdx it + ys.length ≤ (xs ++ ys).length := by
    simp [hni]
  have hrun := nextN_models hm2 ys.length it he hw hlen
  rw [hrun.1, hni]
  calc (List.range ys.length).map (fun j => some (xs ++ ys)[xs.length + j]?)
      = (List.range ys.length).map (fun j => some ys[j]?) := by
        apply List.map_congr_left
        intro j _
        rw [List.getElem?_append_right (by omega)]
        congr 2
        omega
    _ = ys.map (fun y => some (some y)) := range_map_getElem ys some

theorem resumed_iter_yields_new_pushes_witness :
    (StableList.iter (StableList.new Nat)).end_idx = none ∧
    nextIdx (StableList.iter (StableList.new Nat)) = 0 ∧
    ((StableList.iter (StableList.new Nat)).next (StableList.new Nat)).1 =
      none ∧
    pushAll (StableList.new Nat) [7, 8] =
      some ⟨[writeChunk (writeChunk newChunk 0 7) 1 8], 2⟩ ∧
    (nextN (⟨[writeChunk (writeChunk newChunk 0 7) 1 8], 2⟩ : StableList Nat)
        (StableList.iter (StableList.new Nat)) 2).1 =
      [7, 8].map (fun y => some (some y)) :=
  ⟨rfl, rfl, rfl, rfl,
   resumed_iter_yields_new_pushes [] [7, 8] (StableList.new Nat)
     ⟨[writeChunk (writeChunk newChunk 0 7) 1 8], 2⟩
     (StableList.iter (StableList.new Nat)) rfl rfl
     (fun c hc => Option.noConfusion hc) rfl rfl rfl⟩

/-- Claim C5: on a reachable list, `push` fails (panics) exactly when the
committed-length counter has reached `u32::MAX`; otherwise it succeeds and
produces the list extended with the new item (the failing branch returns
before touching the chunks or the counter). -/
theorem push_fails_iff_full {T : Type} (xs : List T) (l : StableList T)
    (x : T) (hb : buildList xs = some l) :
    (l.push x = none ↔ l.len = u32Max) ∧
    (l.len ≠ u32Max → ∃ l2, l.push x = some l2 ∧ Models l2 (xs ++ [x])) := by
  have hm := buildList_models hb
  have hlen : l.len = xs.length := hm.len_eq
  rcases push_models hm x with ⟨hfull, hnone⟩ | ⟨hlt, l2, hp, hm2⟩
  · refine ⟨⟨fun _ => by rw [hlen, hfull], fun _ => hnone⟩, ?_⟩
    intro hne
    exact absurd (hlen.trans hfull) hne
  · refine ⟨⟨fun hcon => ?_, fun heq => ?_⟩, fun _ => ⟨l2, hp, hm2⟩⟩
    · rw [hp] at hcon
      exact Option.noConfusion hcon
    · rw [hlen] at heq
      omega

theorem push_fails_iff_full_witness :
    buildList [5] = some ⟨[writeChunk newChunk 0 5], 1⟩ ∧
    (StableList.push (⟨[writeChunk newChunk 0 5], 1⟩ : StableList Nat) 6 =
        none ↔
      StableList.len (⟨[writeChunk newChunk 0 5], 1⟩ : StableList Nat) =
        u32Max) :=
  ⟨rfl, (push_fails_iff_full [5] _ 6 rfl).1⟩

/-- Claim C6: the committed length counts the pushes: after building from
`new()` it equals the number of pushes, and each further successful push
increases it by exactly one (so it never decreases). -/
theorem len_counts_pushes {T : Type} (xs : List T) (l : StableList T)
    (hb : buildList xs = some l) :
    l.len = xs.length ∧
    ∀ (x : T) (l2 : StableList T), l.push x = some l2 →
      l2.len = l.len + 1 ∧ l.len ≤ l2.len := by
  have hm := buildList_models hb
  refine ⟨hm.len_eq, ?_⟩
  intro x l2 hp
  have hl := push_len hp
  simp only [StableList.len]
  omega

theorem len_counts_pushes_witness :
    buildList [3, 4] =
      some ⟨[writeChunk (writeChunk newChunk 0 3) 1 4], 2⟩ ∧
    StableList.len
      (⟨[writeChunk (writeChunk newChunk 0 3) 1 4], 2⟩ : StableList Nat) =
      2 :=
  ⟨rfl, (len_counts_pushes [3, 4] _ rfl).1⟩

/-- Claim C7: a push writes only the fresh slot: every index below the
committed length reads the same value through `get` before and after the
push. -/
theorem push_preserves_get {T : Type} (xs : List T) (l : StableList T)
    (x : T) (l2 : StableList T) (hb : buildList xs = some l)
    (hp : l.push x = some l2) :
    ∀ i, i < l.len → l2.get i = l.get i := by
  have hm := buildList_models hb
  rcases push_models hm x with ⟨_, hn⟩ | ⟨_, l3, hp3, hm3⟩
  · rw [hn] at hp
    exact Option.noConfusion hp
  · rw [hp3] at hp
    cases hp
    intro i hi
    have hi2 : i < xs.length := by
      have hlen := hm.len_eq
      simp only [StableList.len] at hi
      omega
    rw [get_models hm3 i, get_models hm i, List.getElem?_append_left hi2]

theorem push_preserves_get_witness :
    buildList [10] = some ⟨[writeChunk newChunk 0 10], 1⟩ ∧
    StableList.push (⟨[writeChunk newChunk 0 10], 1⟩ : StableList Nat) 20 =
      some ⟨[writeChunk (writeChunk newChunk 0 10) 1 20], 2⟩ ∧
    StableList.get
      (⟨[writeChunk (writeChunk newChunk 0 10) 1 20], 2⟩ : StableList Nat) 0 =
      StableList.get (⟨[writeChunk newChunk 0 10], 1⟩ : StableList Nat) 0 :=
  ⟨rfl, rfl,
   push_preserves_get [10] _ 20 _ rfl rfl 0 (by decide)⟩

/-- Claim C8: a successful push appends a new chunk exactly when the old
committed length is a multiple of `CHUNK_SIZE`, and the chunk count always
equals `⌈len / CHUNK_SIZE⌉`. -/
theorem push_chunk_allocation {T : Type} (xs : List T) (l : StableList T)
    (hb : buildList xs = some l) :
    l.chunks.length = numChunks l.len ∧
    ∀ (x : T) (l2 : StableList T), l.push x = some l2 →
      (l.len % CHUNK_SIZE = 0 → l2.chunks.length = l.chunks.length + 1) ∧
      (l.len % CHUNK_SIZE ≠ 0 → l2.chunks.length = l.chunks.length) ∧
      l2.chunks.length = numChunks l2.len := by
  have hm := buildList_models hb
  have hcl := hm.chunks_len
  have hlen := hm.len_eq
  refine ⟨by rw [hcl, StableList.len, hlen], ?_⟩
  intro x l2 hp
  rcases push_models hm x with ⟨_, hn⟩ | ⟨hlt, l3, hp3, hm3⟩
  · rw [hn] at hp
    exact Option.noConfusion hp
  · rw [hp3] at hp
    cases hp
    have hcl2 := hm3.chunks_len
    have hlen2 := hm3.len_eq
    have hat : (xs ++ [x]).length = xs.length + 1 := by simp
    refine ⟨?_, ?_, by rw [hcl2, StableList.len, hlen2]⟩
    · intro hz
      have hz2 : xs.length % 128 = 0 := by
        simpa only [StableList.len, hlen, CHUNK_SIZE] using hz
      rw [hcl2, hcl, hat]
      simp only [numChunks, CHUNK_SIZE]
      omega
    · intro hz
      have hz2 : xs.length % 128 ≠ 0 := by
        simpa only [StableList.len, hlen, CHUNK_SIZE] using hz
      rw [hcl2, hcl, hat]
      simp only [numChunks, CHUNK_SIZE]
      omega

theorem push_chunk_allocation_witness :
    buildList [1] = some ⟨[writeChunk newChunk 0 1], 1⟩ ∧
    StableList.push (⟨[writeChunk newChunk 0 1], 1⟩ : StableList Nat) 2 =
      some ⟨[writeChunk (writeChunk newChunk 0 1) 1 2], 2⟩ ∧
    (⟨[writeChunk (writeChunk newChunk 0 1) 1 2], 2⟩ :
      StableList Nat).chunks.length =
      (⟨[writeChunk newChunk 0 1], 1⟩ : StableList Nat).chunks.length :=
  ⟨rfl, rfl,
   ((push_chunk_allocation [1] _ rfl).2 2 _ rfl).2.1 (by decide)⟩

/-- Claim C9: `any_msg_contains snippet` holds exactly when some record at an
index inside the handle's window — from the count captured by `get_handle` up
to the count frozen by `stop_recording`, or the current count if recording was
never stopped — has the snippet as a substring of its message.  `logs0` is the
log vector when the handle was created, `logs1` when recording stopped, and
`logs` when the query runs; the vector only ever grows (prefix order). -/
theorem any_msg_contains_window (logs0 logs1 logs : List Record) (s : String)
    (h01 : logs0 <+: logs1) (h1 : logs1 <+: logs) :
    (CaplogHandle.any_msg_contains logs (get_handle logs0) s = true ↔
      ∃ i r, logs0.length ≤ i ∧ i < logs.length ∧ logs[i]? = some r ∧
        s.toList <:+: r.msg.toList) ∧
    (CaplogHandle.any_msg_contains logs
        (CaplogHandle.stop_recording logs1 (get_handle logs0)) s = true ↔
      ∃ i r, logs0.length ≤ i ∧ i < logs1.length ∧ logs[i]? = some r ∧
        s.toList <:+: r.msg.toList) := by
  constructor
  · have hif := any_msg_contains_iff logs (get_handle logs0) s
      (fun e he => Option.noConfusion he)
    simpa [get_handle, windowEnd] using hif
  · have hif := any_msg_contains_iff logs
      (CaplogHandle.stop_recording logs1 (get_handle logs0)) s
      (fun e he => by
        have he2 : logs1.length = e := by
          simpa [CaplogHandle.stop_recording, get_handle] using he
        rw [← he2]
        exact h1.length_le)
    simpa [get_handle, CaplogHandle.stop_recording, windowEnd] using hif

theorem any_msg_contains_window_witness :
    ([] : List Record) <+: [⟨Level.warn, "terrible thing happened"⟩] ∧
    [(⟨Level.warn, "terrible thing happened"⟩ : Record)] <+:
      [⟨Level.warn, "terrible thing happened"⟩] ∧
    (CaplogHandle.any_msg_contains
        [⟨Level.warn, "terrible thing happened"⟩] (get_handle []) "terrible"
        = true ↔
      ∃ i r, ([] : List Record).length ≤ i ∧
        i < [(⟨Level.warn, "terrible thing happened"⟩ : Record)].length ∧
        [(⟨Level.warn, "terrible thing happened"⟩ : Record)][i]? = some r ∧
        "terrible".toList <:+: r.msg.toList) :=
  ⟨ List.nil_prefix, List.prefix_refl _,
   (any_msg_contains_window [] [⟨Level.warn, "terrible thing happened"⟩]
      [⟨Level.warn, "terrible thing happened"⟩] "terrible"
      ( List.nil_prefix) (List.prefix_refl _)).1⟩

/-- Claim C10: `iter()` and `bounded_iter(0, None)` build identical iterator
states, so every interleaved sequence of pushes and polls observes identical
results through either. -/
theorem iter_eq_bounded_iter_zero {T : Type} (l : StableList T)
    (ops : List (Op T)) :
    StableList.iter l = StableList.bounded_iter l 0 none ∧
    run l (StableList.iter l) ops =
      run l (StableList.bounded_iter l 0 none) ops :=
  ⟨rfl, rfl⟩

end Caplog
